import Mathlib

/-!
Verification of the async_blp repository (shallow embedding).

Python values are embedded as follows: strings are Lean `String`
(Python slicing by code points corresponds to operations on `String.data`),
lists are Lean `List`, and insertion-ordered dictionaries are association
lists (`List (K × V)`) kept duplicate-free by the insert/update operations
below, mirroring CPython dict semantics (assignment replaces the value in
place, new keys are appended; `update` is right-biased).
-/

/-! ## Python dict model -/

/-- Lookup of a key in an insertion-ordered association list, returning the
value of the first matching entry (CPython dict `d[k]` / `k in d`). -/
def alookup {K V : Type} [DecidableEq K] (k : K) : List (K × V) → Option V
  | [] => none
  | kv :: rest => if kv.1 = k then some kv.2 else alookup k rest

/-- CPython dict assignment `d[k] = v`: if the key is present its value is
replaced in place, otherwise the pair is appended at the end. -/
def pyDictInsert {K V : Type} [DecidableEq K] (d : List (K × V)) (k : K) (v : V) :
    List (K × V) :=
  match alookup k d with
  | some _ => d.map fun kv => if kv.1 = k then (kv.1, v) else kv
  | none => d ++ [(k, v)]

/-- CPython `d1.copy()` followed by `.update(d2)`: keys of `d1` keep their
position, their values replaced by `d2` values on collision; keys only in
`d2` are appended in `d2` order. -/
def dictUpdate {K V : Type} [DecidableEq K] (d1 d2 : List (K × V)) : List (K × V) :=
  (d1.map fun kv =>
    match alookup kv.1 d2 with
    | some v => (kv.1, v)
    | none => kv)
  ++ d2.filter fun kv => (alookup kv.1 d1).isNone

/-- Building a dict from a sequence of key/value pairs in order
(a Python dict comprehension; later duplicates overwrite earlier ones). -/
def pyDictOfPairs {K V : Type} [DecidableEq K] (pairs : List (K × V)) : List (K × V) :=
  pairs.foldl (fun d kv => pyDictInsert d kv.1 kv.2) []

/-! ## errors.py -/

/-- `BloombergErrors` from src/async_blp/errors.py: a list of invalid
security identifiers plus a dict from (security, field) to an error
message. -/
structure BloombergErrors where
  invalid_securities : List String
  invalid_fields : List ((String × String) × String)
deriving DecidableEq

/-- `BloombergErrors.__add__` (errors.py lines 62-71):
`invalid_securities` becomes `list(set(self + other))` — its element set is
the union of both operands (the Python set iteration order is arbitrary; we
realise the set as `dedup` of the concatenation, and only membership is ever
relied upon) — and `invalid_fields` is `self.invalid_fields.copy()` then
`.update(other.invalid_fields)`. -/
def BloombergErrors.add (a b : BloombergErrors) : BloombergErrors where
  invalid_securities := (a.invalid_securities ++ b.invalid_securities).dedup
  invalid_fields := dictUpdate a.invalid_fields b.invalid_fields

instance : Add BloombergErrors := ⟨BloombergErrors.add⟩

/-- Truthiness of a `BloombergErrors` instance in Python: the class is a
plain dataclass defining neither a `__bool__` nor a `__len__` method, so
`bool(instance)` is `True` for every instance, including one whose two
components are both empty. -/
def BloombergErrors.pyTruthy (_ : BloombergErrors) : Bool := true

/-! ## enums.py -/

/-- `SecurityIdType` from src/async_blp/enums.py; `value` below carries each
variant's string value. -/
inductive SecurityIdType where
  | TICKER
  | ISIN
  | CUSIP
  | SEDOL
  | BL_SECURITY_IDENTIFIER
  | BL_SECURITY_SYMBOL
  | BL_UNIQUE_IDENTIFIER
  | BL_GLOBAL_IDENTIFIER
deriving DecidableEq

/-- The enum member values from enums.py lines 9-17. -/
def SecurityIdType.value : SecurityIdType → String
  | .TICKER => "/ticker/"
  | .ISIN => "/isin/"
  | .CUSIP => "/cusip/"
  | .SEDOL => "/sedol/"
  | .BL_SECURITY_IDENTIFIER => "/bsid/"
  | .BL_SECURITY_SYMBOL => "/bsym/"
  | .BL_UNIQUE_IDENTIFIER => "/buid/"
  | .BL_GLOBAL_IDENTIFIER => "/bbgid"

/-- `SecurityIdType.add_type` (enums.py line 22-23): `self.value + security_name`. -/
def SecurityIdType.add_type (t : SecurityIdType) (security_name : String) : String :=
  t.value ++ security_name

/-- `SecurityIdType.remove_type` (enums.py line 25-26):
`security_name[len(self.value):]`, Python slicing by code points. -/
def SecurityIdType.remove_type (t : SecurityIdType) (security_name : String) : String :=
  ⟨security_name.data.drop t.value.length⟩

/-- `ErrorBehaviour` from enums.py lines 29-39: exactly the three members
`RAISE = 'raise'`, `RETURN = 'return'`, `IGNORE = 'ignore'`. -/
inductive ErrorBehaviour where
  | RAISE
  | RETURN
  | IGNORE
deriving DecidableEq, Fintype

/-! ## requests.py: error parsing -/

/-- The parts of one `securityData` response element read by
`ReferenceDataRequest._parse_errors`: the `security` identifier string,
whether a `securityError` child element is present, and the
`fieldExceptions` child (if present) as the list of (fieldId, error
message) pairs in wire order. -/
structure SecurityData where
  security : String
  security_error : Bool
  field_exceptions : Option (List (String × String))
deriving DecidableEq

/-- `ReferenceDataRequest._get_security_id_from_security_data`
(requests.py lines 144-154): read the `security` string and strip the
id-type value when one is configured. -/
def get_security_id (security_id_type : Option SecurityIdType)
    (security_data : SecurityData) : String :=
  match security_id_type with
  | some t => t.remove_type security_data.security
  | none => security_data.security

/-- `ReferenceDataRequest._parse_field_exceptions` (requests.py lines
213-236): build the dict mapping (security_id, fieldId) to the error
message. (The source additionally coerces a recognised message into the
str-enum `ErrorType`, whose members compare equal to their string values;
we keep the message string.) -/
def parse_field_exceptions (security_id : String)
    (field_exceptions : List (String × String)) :
    List ((String × String) × String) :=
  field_exceptions.foldl (fun errors fe => pyDictInsert errors (security_id, fe.1) fe.2) []

/-- `ReferenceDataRequest._parse_errors` (requests.py lines 181-211).
Under IGNORE it returns `None` at once. Otherwise it accumulates the
security error (if the `securityError` element is present) and the parsed
field exceptions (if the `fieldExceptions` element is present) into a fresh
`BloombergErrors`, and then, when the behaviour is RAISE **and the Python
expression `security_errors` is truthy**, raises
`BloombergException(security_errors)` (modelled as `Except.error`).
Because a dataclass instance is always truthy (`BloombergErrors.pyTruthy`),
this raise fires for every security under RAISE. -/
def parse_errors (error_behaviour : ErrorBehaviour)
    (security_id_type : Option SecurityIdType)
    (security_data : SecurityData) :
    Except BloombergErrors (Option BloombergErrors) :=
  if error_behaviour = .IGNORE then
    .ok none
  else
    let security_id := get_security_id security_id_type security_data
    let invalid_securities := if security_data.security_error then [security_id] else []
    let invalid_fields :=
      match security_data.field_exceptions with
      | some fes => parse_field_exceptions security_id fes
      | none => []
    let security_errors : BloombergErrors := ⟨invalid_securities, invalid_fields⟩
    if error_behaviour = .RAISE ∧ security_errors.pyTruthy = true then
      .error security_errors
    else
      .ok (some security_errors)

/-! ## requests.py: bulk array fields -/

/-- Result shape of `ReferenceDataRequest._parse_array_field`: either a
plain list of scalar values or a list of dicts. -/
inductive BulkValue (V : Type) where
  | scalars (vals : List V)
  | mappings (records : List (List (String × V)))
deriving DecidableEq

/-- The collapse comprehension of `_parse_array_field` (requests.py line
277): `[list(value.values())[0] for value in values]`, evaluated left to
right. Each dict contributes its first value in insertion order; on an
empty dict, `list(value.values())[0]` raises `IndexError`, modelled as
`none`. -/
def firstValues {V : Type} : List (List (String × V)) → Option (List V)
  | [] => some []
  | record :: rest =>
    match record.head? with
    | none => none
    | some kv => (firstValues rest).map fun vs => kv.2 :: vs

/-- `ReferenceDataRequest._parse_array_field` (requests.py lines 258-280).
Each array element is turned into a dict of its child (name, value) pairs;
then, when the resulting list is non-empty **and its first dict has exactly
one entry** (`if values and len(values[0]) == 1`), every dict is collapsed
to its first value via the comprehension `firstValues`; otherwise the list
of dicts is returned as is. `none` models the `IndexError` the
comprehension raises when some record's dict is empty. -/
def parse_array_field {V : Type}
    (field_values : List (List (String × V))) : Option (BulkValue V) :=
  let values := field_values.map pyDictOfPairs
  match values with
  | [] => some (.mappings [])
  | v0 :: _ =>
    if v0.length = 1 then
      (firstValues values).map .scalars
    else
      some (.mappings values)

/-! ## requests.py: create -/

/-- The securities loop of `ReferenceDataRequest.create` (requests.py lines
288-292). For each security name, when an id type is configured the source
evaluates `self._security_id_type.add_type(name)` — a pure call whose
result is discarded — and then appends the unmodified `name` to the wire
request's `securities` element. The returned list is the sequence of values
appended to that element. -/
def create_securities (security_id_type : Option SecurityIdType)
    (securities : List String) : List String :=
  securities.map fun name =>
    match security_id_type with
    | some t =>
      let _discarded := t.add_type name
      name
    | none => name

/-! ## async_blp.py: historical fan-in -/

/-- The error fan-in of `AsyncBloomberg.get_historical_data` (async_blp.py
lines 197-203): `errors = BloombergErrors()`, then for every `(data, error)`
pair in the gathered chunk results the source executes
`errors += BloombergErrors()` — it adds a freshly constructed empty
`BloombergErrors()` and never the chunk's own `error` value. -/
def get_historical_data_errors (requests_result : List BloombergErrors) : BloombergErrors :=
  requests_result.foldl (fun errors _error => errors + BloombergErrors.mk [] []) ⟨[], []⟩

/-- The error fan-in of `AsyncBloomberg.get_reference_data` (async_blp.py
lines 128-132), for contrast: `errors += error` accumulates every chunk's
ErrorSet. -/
def get_reference_data_errors (requests_result : List BloombergErrors) : BloombergErrors :=
  requests_result.foldl (fun errors error => errors + error) ⟨[], []⟩

/-! ## utils/misc.py: chunking -/

/-- The chunk count computed by `split_into_chunks` (misc.py lines 14-17):
`len // chunk_size`, plus one when the division leaves a remainder. -/
def num_chunks (len chunk_size : Nat) : Nat :=
  len / chunk_size + if len % chunk_size ≠ 0 then 1 else 0

/-- `split_into_chunks` (misc.py lines 8-20): yield the slices
`iterable[i * chunk_size : (i + 1) * chunk_size]` for `i` ranging over the
chunk count. -/
def split_into_chunks {T : Type} (iterable : List T) (chunk_size : Nat) :
    List (List T) :=
  (List.range (num_chunks iterable.length chunk_size)).map
    fun i => (iterable.drop (i * chunk_size)).take chunk_size

/-- `AsyncBloomberg._split_requests` (async_blp.py lines 311-321): the
itertools-style Cartesian product of the security chunks with the field
chunks, in product order. -/
def split_requests {T U : Type} (max_securities_per_request max_fields_per_request : Nat)
    (securities : List T) (fields : List U) : List (List T × List U) :=
  (split_into_chunks securities max_securities_per_request).product
    (split_into_chunks fields max_fields_per_request)

/-! ## async_blp.py: handler pool -/

/-- Outcome of `AsyncBloomberg._choose_handler`, describing which handler is
returned: an existing handler at a position of the pool list, or a freshly
created handler appended to the pool. `none` models the `ValueError` that
Python's `min` raises on an empty sequence (reachable only with an empty pool
and a zero session cap). -/
inductive ChooseResult where
  | existing (i : Nat)
  | created
deriving DecidableEq

/-- Index of the first handler with zero current load
(`free_handlers[0]` of async_blp.py lines 296-301). -/
def firstZeroLoad : List Nat → Option Nat
  | [] => none
  | l :: ls => if l = 0 then some 0 else (firstZeroLoad ls).map (· + 1)

/-- Python's `min(handlers, key=load)` over the non-empty suffix `rest`
whose first element has position `i`, with current best position `best`
holding value `best_val`: updates the best only on a strictly smaller
value, so the first minimum in iteration order wins. -/
def pyMinIdx : List Nat → Nat → Nat → Nat → Nat
  | [], _, best, _ => best
  | a :: rest, i, best, best_val =>
    if a < best_val then pyMinIdx rest (i + 1) i a
    else pyMinIdx rest (i + 1) best best_val

/-- `AsyncBloomberg._choose_handler` (async_blp.py lines 285-309) over the
pool abstracted as the list of handler loads in pool order:
(1) first handler with zero load if any; (2) else a new handler when the
pool is below `max_sessions`; (3) else the first handler attaining the
minimum load. -/
def choose_handler (loads : List Nat) (max_sessions : Nat) : Option ChooseResult :=
  match firstZeroLoad loads with
  | some i => some (.existing i)
  | none =>
    if loads.length < max_sessions then
      some .created
    else
      match loads with
      | [] => none
      | l :: ls => some (.existing (pyMinIdx ls 1 0 l))

/-! ## base_handler.py / handlers.py: correlation table and sentinels -/

/-- Handler state abstraction for `HandlerBase`: `registered` is the list of
correlation keys ever added by `send_requests` (in order), `table` the keys
currently in `_current_requests`, and `sentinels` the log of sentinel
(`None`) deliveries, one occurrence per `send_queue_message(None)` call,
recorded under the key whose request received it. Keys are abstracted as
naturals; a fresh `CorrelationId` is never `None`, so the test-only
`corr_id is None` branch of `_close_requests` is unreachable. -/
structure HandlerState where
  registered : List Nat
  table : List Nat
  sentinels : List Nat
deriving DecidableEq

/-- One iteration of the loop of `HandlerBase._close_requests`
(base_handler.py lines 98-115): pop the key from `_current_requests`; on
`KeyError` continue, otherwise deliver one sentinel to that request. -/
def closeOne (s : HandlerState) (corr_id : Nat) : HandlerState :=
  if corr_id ∈ s.table then
    { s with table := s.table.erase corr_id, sentinels := s.sentinels ++ [corr_id] }
  else s

/-- `HandlerBase._close_requests` over a list of correlation ids. -/
def close_requests (s : HandlerState) (corr_ids : List Nat) : HandlerState :=
  corr_ids.foldl closeOne s

/-- Events that touch the correlation table.
`register k`: one iteration of `RequestHandler.send_requests`
(handlers.py lines 59-61) adding a fresh key.
`errorClose idss`: the error-message branch of
`RequestHandler._partial_response_handler` (handlers.py lines 92-96),
closing the correlation ids of each error message.
`response errIdss idss`: `RequestHandler._response_handler`
(handlers.py lines 102-111) — the partial phase closes the error messages'
ids, then every message's ids are closed.
`stopSession n`: `HandlerBase.stop_session` (base_handler.py lines 89-96)
closes currently registered keys; the iteration runs over a live dict view
while popping, so only a prefix of the key list is processed before Python
raises, hence the prefix length parameter. -/
inductive HandlerEvent where
  | register (k : Nat)
  | errorClose (idss : List (List Nat))
  | response (errIdss idss : List (List Nat))
  | stopSession (n : Nat)

/-- Effect of one event on the handler state. -/
def handlerStep (s : HandlerState) : HandlerEvent → HandlerState
  | .register k =>
    { registered := s.registered ++ [k], table := s.table ++ [k], sentinels := s.sentinels }
  | .errorClose idss => idss.foldl close_requests s
  | .response errIdss idss => idss.foldl close_requests (errIdss.foldl close_requests s)
  | .stopSession n => close_requests s (s.table.take n)

/-- Run a sequence of events. -/
def handlerRun (s : HandlerState) (events : List HandlerEvent) : HandlerState :=
  events.foldl handlerStep s

/-- The empty initial handler state. -/
def handlerInit : HandlerState := ⟨[], [], []⟩

/-- Validity of an event sequence from a given state: every registered key
is fresh (`uuid.uuid4()` in handlers.py line 60 never repeats). -/
def validFrom (s : HandlerState) : List HandlerEvent → Prop
  | [] => True
  | e :: es =>
    (match e with
     | .register k => k ∉ s.registered
     | _ => True) ∧ validFrom (handlerStep s e) es

/-- The correlation-table invariant: the table has no duplicate keys, only
registered keys; a key still in the table has received no sentinel, a
registered key no longer in the table has received exactly one, and an
unregistered key none. -/
def HandlerInv (s : HandlerState) : Prop :=
  s.table.Nodup ∧
  (∀ k, k ∈ s.table → k ∈ s.registered) ∧
  (∀ k, k ∈ s.table → s.sentinels.count k = 0) ∧
  (∀ k, k ∈ s.registered → k ∉ s.table → s.sentinels.count k = 1) ∧
  (∀ k, k ∉ s.registered → s.sentinels.count k = 0)

/-! ## Association-list lemmas -/

/-- First-some combinator, the lookup effect of list concatenation. -/
def optOr {V : Type} : Option V → Option V → Option V
  | some v, _ => some v
  | none, o => o

theorem alookup_append {K V : Type} [DecidableEq K] (k : K) (l1 l2 : List (K × V)) :
    alookup k (l1 ++ l2) = optOr (alookup k l1) (alookup k l2) := by
  induction l1 with
  | nil => simp [alookup, optOr]
  | cons kv rest ih =>
    by_cases h : kv.1 = k <;> simp [alookup, h, ih, optOr]

theorem alookup_map_update {K V : Type} [DecidableEq K] (k : K) (d1 d2 : List (K × V)) :
    alookup k (d1.map fun kv =>
        match alookup kv.1 d2 with
        | some v => (kv.1, v)
        | none => kv)
      = match alookup k d1 with
        | some v => some ((alookup k d2).getD v)
        | none => none := by
  induction d1 with
  | nil => simp [alookup]
  | cons kv rest ih =>
    by_cases h : kv.1 = k
    · subst h
      cases hd2 : alookup kv.1 d2 <;> simp [alookup, hd2]
    · cases hd2 : alookup kv.1 d2 <;> simp [alookup, h, hd2, ih]

theorem alookup_filter_isNone {K V : Type} [DecidableEq K] (k : K) (d1 d2 : List (K × V)) :
    alookup k (d2.filter fun kv => (alookup kv.1 d1).isNone)
      = if (alookup k d1).isNone then alookup k d2 else none := by
  induction d2 with
  | nil => simp [alookup]
  | cons kv rest ih =>
    by_cases h : kv.1 = k
    · subst h
      cases hd1 : alookup kv.1 d1 <;>
        simp [alookup, List.filter, hd1, ih]
    · cases hkeep : (alookup kv.1 d1).isNone <;>
        simp [alookup, List.filter, hkeep, h, ih]

theorem alookup_dictUpdate {K V : Type} [DecidableEq K] (k : K) (d1 d2 : List (K × V)) :
    alookup k (dictUpdate d1 d2) = optOr (alookup k d2) (alookup k d1) := by
  rw [dictUpdate, alookup_append, alookup_map_update, alookup_filter_isNone]
  cases hd1 : alookup k d1 <;> cases hd2 : alookup k d2 <;> simp [optOr]

/-- Unfolding of the `+` operator on `BloombergErrors`. -/
theorem BloombergErrors.add_def (a b : BloombergErrors) :
    a + b = ⟨(a.invalid_securities ++ b.invalid_securities).dedup,
             dictUpdate a.invalid_fields b.invalid_fields⟩ := rfl

/-! ## Claim theorems: errors and enums -/

/-- Claim C9: merging two ErrorSets with `+` is, on the invalid-security
component viewed as a set of elements, the union of the operands — hence
commutative and associative — and on the field-error dict it is
right-biased: a key present in both operands maps to the right operand's
value in the merge. -/
theorem bloomberg_errors_add_algebra (a b c : BloombergErrors) (x : String)
    (k : String × String) :
    (x ∈ (a + b).invalid_securities ↔
      x ∈ a.invalid_securities ∨ x ∈ b.invalid_securities) ∧
    (x ∈ (a + b).invalid_securities ↔ x ∈ (b + a).invalid_securities) ∧
    (x ∈ (a + b + c).invalid_securities ↔ x ∈ (a + (b + c)).invalid_securities) ∧
    ((alookup k a.invalid_fields).isSome = true →
     (alookup k b.invalid_fields).isSome = true →
      alookup k (a + b).invalid_fields = alookup k b.invalid_fields) := by
  refine ⟨?_, ?_, ?_, ?_⟩
  · simp [BloombergErrors.add_def, List.mem_dedup]
  · simp [BloombergErrors.add_def, List.mem_dedup, or_comm]
  · simp [BloombergErrors.add_def, List.mem_dedup, or_assoc]
  · intro _ hb
    rcases Option.isSome_iff_exists.mp hb with ⟨w, hw⟩
    simp [BloombergErrors.add_def, alookup_dictUpdate, hw, optOr]

/-- Witness for C9 at concrete inputs sharing the field-error key
("S", "F"): the merge keeps the right operand's message. -/
theorem bloomberg_errors_add_algebra_witness :
    alookup ("S", "F")
        (BloombergErrors.mk [] [(("S", "F"), "m1")]
          + BloombergErrors.mk [] [(("S", "F"), "m2")]).invalid_fields
      = some "m2" := by
  have h := bloomberg_errors_add_algebra
    ⟨[], [(("S", "F"), "m1")]⟩ ⟨[], [(("S", "F"), "m2")]⟩ ⟨[], []⟩ "" ("S", "F")
  exact (h.2.2.2 (by decide) (by decide)).trans (by decide)

/-- Claim C10: for every id-type variant and every identifier string,
stripping the type value after adding it returns the original identifier:
`remove_type` drops exactly `len(value)` leading code points, which is
precisely what `add_type` prepended. -/
theorem add_type_remove_type_roundtrip (t : SecurityIdType) (s : String) :
    t.remove_type (t.add_type s) = s := by
  rcases s with ⟨data⟩
  show (⟨(t.value ++ ⟨data⟩).data.drop t.value.length⟩ : String) = ⟨data⟩
  have h : (t.value ++ ⟨data⟩).data = t.value.data ++ data := by simp
  rw [h]
  have hl : t.value.length = t.value.data.length := rfl
  rw [hl, List.drop_left]

/-- Claim C8 counterexample: the error-behaviour enum has exactly three
members (RAISE, RETURN, IGNORE), not the four claimed — no WARN member
exists. -/
theorem error_behaviour_has_three_values : Fintype.card ErrorBehaviour = 3 := by
  decide

/-- Claim C8 (amended): the per-Request error-behaviour policy accepts
exactly the three values IGNORE, RETURN and RAISE. -/
theorem error_behaviour_values_exhaustive (b : ErrorBehaviour) :
    b = .IGNORE ∨ b = .RETURN ∨ b = .RAISE := by
  revert b; decide

/-- Claim C1: evaluation of the historical-data error fan-in at a chunk
result carrying a non-empty ErrorSet. The fan-in returns the empty
ErrorSet — the chunk's invalid security and field error are lost — whereas
the reference-data fan-in (`errors += error`) keeps them. -/
theorem get_historical_data_errors_drops_chunk_errors :
    get_historical_data_errors
        [BloombergErrors.mk ["XS1234"] [(("XS1234", "PX_LAST"), "Field not valid")]]
      = BloombergErrors.mk [] [] ∧
    get_reference_data_errors
        [BloombergErrors.mk ["XS1234"] [(("XS1234", "PX_LAST"), "Field not valid")]]
      = BloombergErrors.mk ["XS1234"] [(("XS1234", "PX_LAST"), "Field not valid")] := by
  exact ⟨rfl, by decide⟩

/-- Claim C2: evaluation of `_parse_errors` under RAISE at a security datum
with no error marker (no `securityError` element, no `fieldExceptions`
element): the code raises `BloombergException` carrying an empty
`BloombergErrors`, because the dataclass `security_errors` is truthy even
when empty. -/
theorem parse_errors_raise_raises_on_clean_security :
    parse_errors .RAISE none ⟨"F Equity", false, none⟩
      = .error (BloombergErrors.mk [] []) := rfl

/-- Claim C7: evaluation of the `create` securities loop with a configured
id type: the identifier is appended unchanged, although `add_type` would
produce the prefixed identifier. -/
theorem create_securities_ignores_id_type :
    create_securities (some .ISIN) ["XS0123456789"] = ["XS0123456789"] ∧
    SecurityIdType.add_type .ISIN "XS0123456789" = "/isin/XS0123456789" := by
  exact ⟨rfl, by decide⟩

/-! ## Claim theorems: bulk array fields (C6) -/

theorem firstValues_eq_some {V : Type} [Inhabited V] (values : List (List (String × V)))
    (h : ∀ r ∈ values, r ≠ []) :
    firstValues values = some (values.map fun record => record.headI.2) := by
  induction values with
  | nil => rfl
  | cons record rest ih =>
    cases record with
    | nil => exact absurd rfl (h [] (List.mem_cons_self _ _))
    | cons kv rtail =>
      rw [firstValues]
      simp [ih fun x hx => h x (List.mem_cons_of_mem _ hx), List.headI]

theorem firstValues_eq_none {V : Type} (values : List (List (String × V)))
    (h : ∃ r ∈ values, r = []) :
    firstValues values = none := by
  induction values with
  | nil =>
    rcases h with ⟨r, hr, -⟩
    exact absurd hr (List.not_mem_nil r)
  | cons record rest ih =>
    rcases h with ⟨r2, hr2, he⟩
    rcases List.mem_cons.mp hr2 with rfl | hmem
    · rw [he]
      rfl
    · cases record with
      | nil => rfl
      | cons kv rtail =>
        rw [firstValues]
        simp [ih ⟨r2, hmem, he⟩]

/-- Claim C6 counterexample: a bulk array whose records do not all have
exactly one field. The first record has one field, so the collapse branch
fires and the parser returns a plain list of each record's first value —
not a list of mappings as the claim requires. -/
theorem parse_array_field_multikey_counterexample :
    parse_array_field [[("a", (1 : Nat))], [("b", 2), ("c", 3)]]
      = some (.scalars [1, 2]) := rfl

/-- Claim C6 (amended): the collapse decision looks only at the first
record. When the array is non-empty and its first record's dict has exactly
one entry, the collapse branch fires even if later records have several
fields: the parser returns the plain list of each record's first value when
every record's dict is non-empty, and raises `IndexError` (modelled as
`none`) when some record's dict is empty. Otherwise (empty array, or first
record's dict not of size one) it returns the list of mappings. -/
theorem parse_array_field_first_record_collapse {V : Type} [Inhabited V]
    (field_values : List (List (String × V))) :
    (field_values ≠ [] ∧ (pyDictOfPairs field_values.headI).length = 1 →
      ((∀ r ∈ field_values.map pyDictOfPairs, r ≠ []) →
        parse_array_field field_values
          = some (.scalars
              ((field_values.map pyDictOfPairs).map fun record => record.headI.2))) ∧
      ((∃ r ∈ field_values.map pyDictOfPairs, r = []) →
        parse_array_field field_values = none)) ∧
    (field_values = [] ∨ (pyDictOfPairs field_values.headI).length ≠ 1 →
      parse_array_field field_values
        = some (.mappings (field_values.map pyDictOfPairs))) := by
  cases field_values with
  | nil =>
    refine ⟨fun h => absurd rfl h.1, fun _ => rfl⟩
  | cons r rs =>
    constructor
    · rintro ⟨-, hlen⟩
      simp only [List.headI] at hlen
      constructor
      · intro hne
        rw [show (r :: rs).map pyDictOfPairs
            = pyDictOfPairs r :: rs.map pyDictOfPairs from rfl] at hne ⊢
        simp [parse_array_field, hlen, firstValues_eq_some _ hne]
      · intro hex
        rw [show (r :: rs).map pyDictOfPairs
            = pyDictOfPairs r :: rs.map pyDictOfPairs from rfl] at hex
        simp [parse_array_field, hlen, firstValues_eq_none _ hex]
    · rintro (h | hlen)
      · exact absurd h (List.cons_ne_nil r rs)
      · simp only [List.headI] at hlen
        simp [parse_array_field, hlen]

/-- Witness for C6 (amended) at concrete inputs: a singleton single-field
array collapses; a collapse over a later zero-field record is the
`IndexError` path; the empty array stays a list of mappings. -/
theorem parse_array_field_first_record_collapse_witness :
    parse_array_field [[("a", (1 : Nat))]] = some (.scalars [1]) ∧
    parse_array_field [[("a", (1 : Nat))], []] = none ∧
    parse_array_field ([] : List (List (String × Nat))) = some (.mappings []) := by
  refine ⟨?_, ?_, ?_⟩
  · exact ((parse_array_field_first_record_collapse [[("a", (1 : Nat))]]).1
      ⟨by decide, by decide⟩).1 (by decide)
  · exact ((parse_array_field_first_record_collapse [[("a", (1 : Nat))], []]).1
      ⟨by decide, by decide⟩).2 ⟨[], by decide, rfl⟩
  · exact (parse_array_field_first_record_collapse
      ([] : List (List (String × Nat)))).2 (Or.inl rfl)

/-! ## Chunking lemmas (C3) -/

theorem range_map_chunks_flatten {T : Type} (l : List T) (c : Nat) (n : Nat) :
    ((List.range n).map fun i => (l.drop (i * c)).take c).flatten = l.take (n * c) := by
  induction n with
  | zero => simp
  | succ m ih =>
    rw [List.range_succ, List.map_append, List.flatten_append, ih]
    simp only [List.map_cons, List.map_nil, List.flatten_cons, List.flatten_nil,
      List.append_nil]
    rw [← List.take_add]
    congr 1
    ring

theorem le_num_chunks_mul (n c : Nat) (hc : 1 ≤ c) : n ≤ num_chunks n c * c := by
  have hc0 : 0 < c := hc
  have hdm : c * (n / c) + n % c = n := Nat.div_add_mod n c
  have hmod : n % c < c := Nat.mod_lt n hc0
  unfold num_chunks
  by_cases h0 : n % c = 0
  · have hgoal : (n / c + if n % c ≠ 0 then 1 else 0) = n / c := by simp [h0]
    rw [hgoal]
    have hcomm : n / c * c = c * (n / c) := Nat.mul_comm _ _
    omega
  · have hgoal : (n / c + if n % c ≠ 0 then 1 else 0) = n / c + 1 := by simp [h0]
    rw [hgoal]
    have hx : (n / c + 1) * c = c * (n / c) + c := by ring
    omega

/-- Concatenating the chunks of `split_into_chunks` recovers the input:
no element is dropped or duplicated. -/
theorem split_into_chunks_flatten {T : Type} (l : List T) (c : Nat) (hc : 1 ≤ c) :
    (split_into_chunks l c).flatten = l := by
  rw [split_into_chunks, range_map_chunks_flatten]
  exact List.take_of_length_le (le_num_chunks_mul l.length c hc)

/-- The chunk count of `split_into_chunks` is the ceiling of `n / c`. -/
theorem num_chunks_eq_ceil (n c : Nat) (hc : 1 ≤ c) :
    num_chunks n c = (n + c - 1) / c := by
  have hc0 : 0 < c := hc
  have hdm : c * (n / c) + n % c = n := Nat.div_add_mod n c
  have hmod : n % c < c := Nat.mod_lt n hc0
  unfold num_chunks
  by_cases h0 : n % c = 0
  · have hn : n + c - 1 = c * (n / c) + (c - 1) := by omega
    have h2 : (c - 1) / c = 0 := Nat.div_eq_of_lt (by omega)
    calc n / c + (if n % c ≠ 0 then 1 else 0)
        = n / c + (c - 1) / c := by simp [h0, h2]
      _ = (c * (n / c) + (c - 1)) / c := (Nat.mul_add_div hc0 _ _).symm
      _ = (n + c - 1) / c := by rw [← hn]
  · have hn : n + c - 1 = c * (n / c + 1) + (n % c - 1) := by
      have hy : c * (n / c + 1) = c * (n / c) + c := by ring
      omega
    have h2 : (n % c - 1) / c = 0 := Nat.div_eq_of_lt (by omega)
    calc n / c + (if n % c ≠ 0 then 1 else 0)
        = n / c + 1 + (n % c - 1) / c := by simp [h0, h2]
      _ = (c * (n / c + 1) + (n % c - 1)) / c := by
          rw [Nat.mul_add_div hc0]
      _ = (n + c - 1) / c := by rw [← hn]

theorem length_split_into_chunks {T : Type} (l : List T) (c : Nat) :
    (split_into_chunks l c).length = num_chunks l.length c := by
  simp [split_into_chunks]

/-! ## Cartesian-product lemmas (C3) -/

theorem product_def {T U : Type} (l1 : List T) (l2 : List U) :
    l1.product l2 = l1.flatMap fun a => l2.map (Prod.mk a) := rfl

theorem length_product_eq {T U : Type} (l1 : List T) (l2 : List U) :
    (l1.product l2).length = l1.length * l2.length := by
  induction l1 with
  | nil => simp [product_def]
  | cons a l ih =>
    simp only [product_def, List.flatMap_cons] at ih ⊢
    simp [ih, Nat.succ_mul, Nat.add_comm]

theorem product_append_left {T U : Type} (a b : List T) (t : List U) :
    (a ++ b).product t = a.product t ++ b.product t := by
  simp [product_def, List.flatMap_append]

theorem product_append_right_perm {T U : Type} (a : List T) (b c : List U) :
    List.Perm (a.product (b ++ c)) (a.product b ++ a.product c) := by
  simp only [product_def, List.map_append]
  exact (List.flatMap_append_perm a (fun x => b.map (Prod.mk x))
    (fun x => c.map (Prod.mk x))).symm

theorem flatMap_product_left {T U : Type} (A : List (List T)) (t : List U) :
    (A.flatMap fun a => a.product t) = A.flatten.product t := by
  induction A with
  | nil => simp [product_def]
  | cons a A ih => simp [product_append_left, ih]

theorem flatMap_product_right_perm {T U : Type} (a : List T) (B : List (List U)) :
    List.Perm (B.flatMap fun b => a.product b) (a.product B.flatten) := by
  induction B with
  | nil => simp [product_def]
  | cons b B ih =>
    simp only [List.flatMap_cons, List.flatten_cons]
    exact (ih.append_left _).trans (product_append_right_perm a b B.flatten).symm

/-- Collecting every (entity, field) pair of a product of chunk lists is,
up to order, the product of the concatenated chunks. -/
theorem product_flatMap_pairs_perm {T U : Type} (A : List (List T)) (B : List (List U)) :
    List.Perm ((A.product B).flatMap fun p => p.1.product p.2)
      (A.flatten.product B.flatten) := by
  rw [product_def A B, List.flatMap_assoc]
  have h1 : (A.flatMap fun a => (B.map (Prod.mk a)).flatMap fun p => p.1.product p.2)
      = A.flatMap fun a => B.flatMap fun b => a.product b := by
    simp [List.flatMap_map]
  rw [h1, ← flatMap_product_left A B.flatten]
  exact List.Perm.flatMap_left A fun a _ => flatMap_product_right_perm a B

/-- Claim C3: for every chunk size C ≥ 1, splitting a query into chunk
sub-queries yields exactly ⌈N/C⌉ · ⌈M/C⌉ sub-queries, and the multiset of
(entity, field) pairs covered by the sub-queries is exactly the full
Cartesian product of the entity and field lists — a permutation, hence no
pair is duplicated and none is omitted. -/
theorem split_requests_count_and_coverage {T U : Type} (C : Nat) (hC : 1 ≤ C)
    (securities : List T) (fields : List U) :
    (split_requests C C securities fields).length
      = ((securities.length + C - 1) / C) * ((fields.length + C - 1) / C) ∧
    List.Perm ((split_requests C C securities fields).flatMap fun p => p.1.product p.2)
      (securities.product fields) := by
  constructor
  · rw [split_requests, length_product_eq, length_split_into_chunks,
      length_split_into_chunks, num_chunks_eq_ceil _ _ hC, num_chunks_eq_ceil _ _ hC]
  · have h := product_flatMap_pairs_perm (split_into_chunks securities C)
      (split_into_chunks fields C)
    rw [split_into_chunks_flatten _ _ hC, split_into_chunks_flatten _ _ hC] at h
    exact h

/-- Witness for C3 at the spec's concrete scenario: chunk size 2 and three
securities and fields give four sub-queries covering the 3 × 3 product. -/
theorem split_requests_count_and_coverage_witness :
    (split_requests 2 2 ["s1", "s2", "s3"] ["f1", "f2", "f3"]).length = 4 ∧
    List.Perm ((split_requests 2 2 ["s1", "s2", "s3"] ["f1", "f2", "f3"]).flatMap
        fun p => p.1.product p.2)
      (["s1", "s2", "s3"].product ["f1", "f2", "f3"]) := by
  have h := split_requests_count_and_coverage 2 (by decide)
    ["s1", "s2", "s3"] ["f1", "f2", "f3"]
  exact ⟨h.1.trans (by decide), h.2⟩

/-! ## Handler-pool lemmas (C4) -/

theorem pyMinIdx_invariant (rest : List Nat) :
    ∀ (loads : List Nat) (i best best_val : Nat),
    loads.drop i = rest →
    best < i →
    best < loads.length →
    loads.getD best 0 = best_val →
    (∀ k, k < best → best_val < loads.getD k 0) →
    (∀ k, k < i → best_val ≤ loads.getD k 0) →
    pyMinIdx rest i best best_val < loads.length ∧
    (∀ k, k < loads.length →
      loads.getD (pyMinIdx rest i best best_val) 0 ≤ loads.getD k 0) ∧
    (∀ k, k < pyMinIdx rest i best best_val →
      loads.getD (pyMinIdx rest i best best_val) 0 < loads.getD k 0) := by
  induction rest with
  | nil =>
    intro loads i best best_val hdrop hbi hblen hbv hstrict hle
    have hlen : loads.length ≤ i := List.drop_eq_nil_iff.mp hdrop
    refine ⟨hblen, ?_, ?_⟩
    · intro k hk
      rw [pyMinIdx, hbv]
      exact hle k (lt_of_lt_of_le hk hlen)
    · intro k hk
      rw [pyMinIdx] at hk ⊢
      rw [hbv]
      exact hstrict k hk
  | cons a rest ih =>
    intro loads i best best_val hdrop hbi hblen hbv hstrict hle
    have hilen : i < loads.length := by
      by_contra hc
      push_neg at hc
      rw [List.drop_eq_nil_of_le hc] at hdrop
      exact List.noConfusion hdrop
    have hgi : loads.getD i 0 = a := by
      have h0 : (loads.drop i)[0]? = some a := by rw [hdrop]; simp
      rw [List.getElem?_drop, Nat.add_zero] at h0
      simp [List.getD_eq_getElem?_getD, h0]
    have hdrop2 : loads.drop (i + 1) = rest := by
      have := congrArg (List.drop 1) hdrop
      rw [List.drop_drop] at this
      exact this
    rw [pyMinIdx]
    by_cases hcmp : a < best_val
    · rw [if_pos hcmp]
      apply ih loads (i + 1) i a hdrop2 (Nat.lt_succ_self i) hilen hgi
      · intro k hk
        exact lt_of_lt_of_le hcmp (hle k hk)
      · intro k hk
        rcases Nat.lt_succ_iff_lt_or_eq.mp hk with h | h
        · exact le_of_lt (lt_of_lt_of_le hcmp (hle k h))
        · subst h; rw [hgi]
    · rw [if_neg hcmp]
      push_neg at hcmp
      apply ih loads (i + 1) best best_val hdrop2
        (Nat.lt_succ_of_lt hbi) hblen hbv hstrict
      intro k hk
      rcases Nat.lt_succ_iff_lt_or_eq.mp hk with h | h
      · exact hle k h
      · subst h; rw [hgi]; exact hcmp

theorem firstZeroLoad_some (loads : List Nat) :
    ∀ i, firstZeroLoad loads = some i →
      i < loads.length ∧ loads.getD i 1 = 0 ∧ ∀ j, j < i → loads.getD j 0 ≠ 0 := by
  induction loads with
  | nil => intro i h; exact absurd h (by simp [firstZeroLoad])
  | cons l ls ih =>
    intro i h
    rw [firstZeroLoad] at h
    by_cases hl : l = 0
    · rw [if_pos hl] at h
      cases h
      exact ⟨Nat.succ_pos _, by simpa using hl,
        fun j hj => absurd hj (Nat.not_lt_zero j)⟩
    · rw [if_neg hl] at h
      rcases Option.map_eq_some'.mp h with ⟨i', hi', rfl⟩
      rcases ih i' hi' with ⟨h1, h2, h3⟩
      refine ⟨Nat.succ_lt_succ h1, by simpa using h2, ?_⟩
      intro j hj
      cases j with
      | zero => simpa using hl
      | succ j' => simpa using h3 j' (Nat.lt_of_succ_lt_succ hj)

theorem firstZeroLoad_none_iff (loads : List Nat) :
    firstZeroLoad loads = none ↔ ∀ l ∈ loads, l ≠ 0 := by
  induction loads with
  | nil => simp [firstZeroLoad]
  | cons l ls ih =>
    by_cases hl : l = 0 <;> simp [firstZeroLoad, hl, ih]

/-- Claim C4: `_choose_handler` over the pool's load list. (1) When a
zero-load handler exists, the first one (in pool order) is returned.
(2) Otherwise, when the pool is below `max_sessions`, a new handler is
created, registered and returned, and the pool still respects the cap.
(3) Otherwise (for a non-empty pool) the returned handler's load is a
minimum of all loads, and every handler before it in iteration order has a
strictly larger load — the first minimum wins. The final clause ties the
code's branch condition to the existence of a zero-load handler. -/
theorem choose_handler_correct (loads : List Nat) (max_sessions : Nat) :
    (∀ i, firstZeroLoad loads = some i →
        choose_handler loads max_sessions = some (.existing i) ∧
        i < loads.length ∧ loads.getD i 1 = 0 ∧ ∀ j, j < i → loads.getD j 0 ≠ 0) ∧
    (firstZeroLoad loads = none → loads.length < max_sessions →
        choose_handler loads max_sessions = some .created ∧
        loads.length + 1 ≤ max_sessions) ∧
    (firstZeroLoad loads = none → ¬ loads.length < max_sessions → loads ≠ [] →
        ∃ j, choose_handler loads max_sessions = some (.existing j) ∧
          j < loads.length ∧
          (∀ k, k < loads.length → loads.getD j 0 ≤ loads.getD k 0) ∧
          (∀ k, k < j → loads.getD j 0 < loads.getD k 0)) ∧
    (firstZeroLoad loads = none ↔ ∀ l ∈ loads, l ≠ 0) := by
  refine ⟨?_, ?_, ?_, firstZeroLoad_none_iff loads⟩
  · intro i hi
    rcases firstZeroLoad_some loads i hi with ⟨h1, h2, h3⟩
    exact ⟨by simp [choose_handler, hi], h1, h2, h3⟩
  · intro hnone hlt
    exact ⟨by simp [choose_handler, hnone, hlt], hlt⟩
  · intro hnone hge hne
    cases loads with
    | nil => exact absurd rfl hne
    | cons l ls =>
      have h := pyMinIdx_invariant ls (l :: ls) 1 0 l rfl Nat.one_pos
        (by simp) (by simp) (fun k hk => absurd hk (Nat.not_lt_zero k))
        (by intro k hk
            have hk0 : k = 0 := by omega
            subst hk0; simp)
      refine ⟨pyMinIdx ls 1 0 l, ?_, h.1, h.2.1, h.2.2⟩
      have hge2 : max_sessions ≤ ls.length + 1 := by simpa using hge
      simp [choose_handler, hnone, hge2]

/-- Witness for C4 at concrete pools: a pool [3, 0] yields the zero-load
handler at position 1; a pool [1] under cap 5 creates a new handler; a full
pool [2, 6] under cap 2 yields the smallest-load handler at position 0
(the spec's concrete scenario). -/
theorem choose_handler_correct_witness :
    choose_handler [3, 0] 5 = some (ChooseResult.existing 1) ∧
    choose_handler [1] 5 = some ChooseResult.created ∧
    choose_handler [2, 6] 2 = some (ChooseResult.existing 0) := by
  refine ⟨((choose_handler_correct [3, 0] 5).1 1 (by decide)).1,
          ((choose_handler_correct [1] 5).2.1 (by decide) (by decide)).1, ?_⟩
  rcases (choose_handler_correct [2, 6] 2).2.2.1 (by decide) (by decide) (by decide)
    with ⟨j, hj, hlen, hmin, -⟩
  have h6 : ([2, 6] : List Nat).getD j 0 ≤ 2 := hmin 0 (by decide)
  have hl2 : ([2, 6] : List Nat).length = 2 := rfl
  cases j with
  | zero => exact hj
  | succ j' =>
    cases j' with
    | zero => exact absurd h6 (by decide)
    | succ j2 => exact absurd hlen (by omega)

/-! ## Correlation-table lemmas (C5) -/

theorem closeOne_registered (s : HandlerState) (k : Nat) :
    (closeOne s k).registered = s.registered := by
  unfold closeOne; split <;> rfl

theorem close_requests_registered (ks : List Nat) :
    ∀ s : HandlerState, (close_requests s ks).registered = s.registered := by
  induction ks with
  | nil => intro s; rfl
  | cons a rest ih =>
    intro s
    show (close_requests (closeOne s a) rest).registered = s.registered
    rw [ih, closeOne_registered]

theorem foldl_close_registered (idss : List (List Nat)) :
    ∀ s : HandlerState, (idss.foldl close_requests s).registered = s.registered := by
  induction idss with
  | nil => intro s; rfl
  | cons ids rest ih =>
    intro s
    show (rest.foldl close_requests (close_requests s ids)).registered = s.registered
    rw [ih, close_requests_registered]

theorem closeOne_table_mem {s : HandlerState} {k k' : Nat}
    (h : k' ∈ (closeOne s k).table) : k' ∈ s.table := by
  unfold closeOne at h
  split at h
  · exact List.mem_of_mem_erase h
  · exact h

theorem closeOne_not_mem {s : HandlerState} {k k' : Nat} (h : k ∉ s.table) :
    k ∉ (closeOne s k').table :=
  fun hc => h (closeOne_table_mem hc)

theorem close_requests_not_mem (ks : List Nat) :
    ∀ {s : HandlerState} {k : Nat}, k ∉ s.table → k ∉ (close_requests s ks).table := by
  induction ks with
  | nil => intro s k h; exact h
  | cons a rest ih =>
    intro s k h
    exact ih (closeOne_not_mem h)

theorem foldl_close_not_mem (idss : List (List Nat)) :
    ∀ {s : HandlerState} {k : Nat}, k ∉ s.table →
      k ∉ (idss.foldl close_requests s).table := by
  induction idss with
  | nil => intro s k h; exact h
  | cons ids rest ih =>
    intro s k h
    exact ih (close_requests_not_mem ids h)

theorem closeOne_nodup {s : HandlerState} (h : s.table.Nodup) (k : Nat) :
    (closeOne s k).table.Nodup := by
  unfold closeOne
  split
  · exact h.erase k
  · exact h

theorem close_requests_nodup (ks : List Nat) :
    ∀ {s : HandlerState}, s.table.Nodup → (close_requests s ks).table.Nodup := by
  induction ks with
  | nil => intro s h; exact h
  | cons a rest ih =>
    intro s h
    exact ih (closeOne_nodup h a)

theorem close_requests_removes (ks : List Nat) :
    ∀ {s : HandlerState} {k : Nat}, s.table.Nodup → k ∈ ks →
      k ∉ (close_requests s ks).table := by
  induction ks with
  | nil => intro s k _ h; exact absurd h (List.not_mem_nil k)
  | cons a rest ih =>
    intro s k hnd hk
    rcases List.mem_cons.mp hk with rfl | hk2
    · apply close_requests_not_mem rest
      unfold closeOne
      split
      · intro hc
        exact (hnd.mem_erase_iff.mp hc).1 rfl
      · next hna => exact hna
    · exact ih (closeOne_nodup hnd a) hk2

theorem foldl_close_removes (idss : List (List Nat)) :
    ∀ {s : HandlerState} {k : Nat}, s.table.Nodup →
      (∃ ids, ids ∈ idss ∧ k ∈ ids) →
      k ∉ (idss.foldl close_requests s).table := by
  induction idss with
  | nil =>
    intro s k _ h
    rcases h with ⟨ids, hin, -⟩
    exact absurd hin (List.not_mem_nil ids)
  | cons ids rest ih =>
    intro s k hnd h
    rcases h with ⟨ids2, hin, hmem⟩
    rcases List.mem_cons.mp hin with rfl | hin2
    · exact foldl_close_not_mem rest (close_requests_removes ids2 hnd hmem)
    · exact ih (close_requests_nodup ids hnd) ⟨ids2, hin2, hmem⟩

theorem count_append_singleton (l : List Nat) (a b : Nat) :
    (l ++ [b]).count a = l.count a + if a = b then 1 else 0 := by
  by_cases h : a = b <;> simp [List.count_append, List.count_cons, h]

theorem handlerInv_closeOne {s : HandlerState} (h : HandlerInv s) (k : Nat) :
    HandlerInv (closeOne s k) := by
  obtain ⟨hnd, hreg, hzero, hone, hnone⟩ := h
  unfold closeOne
  split
  · next hkt =>
    refine ⟨hnd.erase k, ?_, ?_, ?_, ?_⟩
    · intro k2 hk2
      exact hreg k2 (List.mem_of_mem_erase hk2)
    · intro k2 hk2
      have hne : k2 ≠ k := (hnd.mem_erase_iff.mp hk2).1
      have hkt2 : k2 ∈ s.table := (hnd.mem_erase_iff.mp hk2).2
      rw [count_append_singleton, hzero k2 hkt2, if_neg hne]
    · intro k2 hreg2 hnot
      by_cases hek : k2 = k
      · subst hek
        rw [count_append_singleton, hzero k2 hkt, if_pos rfl]
      · have hnt : k2 ∉ s.table := by
          intro hc
          exact hnot (hnd.mem_erase_iff.mpr ⟨hek, hc⟩)
        rw [count_append_singleton, hone k2 hreg2 hnt, if_neg hek]
    · intro k2 hnr
      have hk2 : k2 ≠ k := fun he => hnr (he ▸ hreg k hkt)
      rw [count_append_singleton, hnone k2 hnr, if_neg hk2]
  · exact ⟨hnd, hreg, hzero, hone, hnone⟩

theorem handlerInv_close_requests (ks : List Nat) :
    ∀ {s : HandlerState}, HandlerInv s → HandlerInv (close_requests s ks) := by
  induction ks with
  | nil => intro s h; exact h
  | cons a rest ih =>
    intro s h
    exact ih (handlerInv_closeOne h a)

theorem handlerInv_foldl_close (idss : List (List Nat)) :
    ∀ {s : HandlerState}, HandlerInv s → HandlerInv (idss.foldl close_requests s) := by
  induction idss with
  | nil => intro s h; exact h
  | cons ids rest ih =>
    intro s h
    exact ih (handlerInv_close_requests ids h)

theorem handlerInv_step {s : HandlerState} (e : HandlerEvent) (h : HandlerInv s)
    (hfresh : match e with | .register k => k ∉ s.registered | _ => True) :
    HandlerInv (handlerStep s e) := by
  obtain ⟨hnd, hreg, hzero, hone, hnone⟩ := h
  cases e with
  | register k =>
    have hknr : k ∉ s.registered := hfresh
    have hknt : k ∉ s.table := fun hc => hknr (hreg k hc)
    refine ⟨?_, ?_, ?_, ?_, ?_⟩
    · rw [show (handlerStep s (.register k)).table = s.table ++ [k] from rfl,
        ← List.concat_eq_append]
      exact hnd.concat hknt
    · intro k2 hk2
      rcases List.mem_append.mp hk2 with h2 | h2
      · exact List.mem_append.mpr (Or.inl (hreg k2 h2))
      · exact List.mem_append.mpr (Or.inr h2)
    · intro k2 hk2
      rcases List.mem_append.mp hk2 with h2 | h2
      · exact hzero k2 h2
      · rw [List.mem_singleton.mp h2]
        exact hnone k hknr
    · intro k2 hreg2 hnot
      have hne : k2 ≠ k := by
        intro he
        exact hnot (List.mem_append.mpr (Or.inr (he ▸ List.mem_singleton_self k)))
      have h2 : k2 ∈ s.registered := by
        rcases List.mem_append.mp hreg2 with h3 | h3
        · exact h3
        · exact absurd (List.mem_singleton.mp h3) hne
      have h3 : k2 ∉ s.table :=
        fun hc => hnot (List.mem_append.mpr (Or.inl hc))
      exact hone k2 h2 h3
    · intro k2 hnr
      have h2 : k2 ∉ s.registered :=
        fun hc => hnr (List.mem_append.mpr (Or.inl hc))
      exact hnone k2 h2
  | errorClose idss => exact handlerInv_foldl_close idss ⟨hnd, hreg, hzero, hone, hnone⟩
  | response errIdss idss =>
    exact handlerInv_foldl_close idss
      (handlerInv_foldl_close errIdss ⟨hnd, hreg, hzero, hone, hnone⟩)
  | stopSession n =>
    exact handlerInv_close_requests _ ⟨hnd, hreg, hzero, hone, hnone⟩

theorem handlerInv_init : HandlerInv handlerInit := by
  refine ⟨List.nodup_nil, ?_, ?_, ?_, ?_⟩ <;> intro k <;> simp [handlerInit]

theorem handlerInv_run (events : List HandlerEvent) :
    ∀ {s : HandlerState}, HandlerInv s → validFrom s events →
      HandlerInv (handlerRun s events) := by
  induction events with
  | nil => intro s h _; exact h
  | cons e es ih =>
    intro s h hv
    exact ih (handlerInv_step e h hv.1) hv.2

/-- Claim C5: over every valid event sequence delivered to a handler
(fresh keys on registration), each request's queue holds at most one
terminal sentinel; a key still in the correlation table has received none;
and when a RESPONSE event or a stop-session close-out touches a key that is
in the table, afterwards the key is absent from the table and its request's
queue holds exactly one sentinel — removal and sentinel delivery are
paired. -/
theorem handler_sentinel_at_most_once (events : List HandlerEvent)
    (hvalid : validFrom handlerInit events) :
    (∀ k, (handlerRun handlerInit events).sentinels.count k ≤ 1) ∧
    (∀ k, k ∈ (handlerRun handlerInit events).table →
      (handlerRun handlerInit events).sentinels.count k = 0) ∧
    (∀ k errIdss idss, k ∈ (handlerRun handlerInit events).table →
      (∃ ids, ids ∈ idss ∧ k ∈ ids) →
      k ∉ (handlerStep (handlerRun handlerInit events) (.response errIdss idss)).table ∧
      (handlerStep (handlerRun handlerInit events)
        (.response errIdss idss)).sentinels.count k = 1) ∧
    (∀ k n, k ∈ (handlerRun handlerInit events).table.take n →
      k ∉ (handlerStep (handlerRun handlerInit events) (.stopSession n)).table ∧
      (handlerStep (handlerRun handlerInit events)
        (.stopSession n)).sentinels.count k = 1) := by
  have hInv : HandlerInv (handlerRun handlerInit events) :=
    handlerInv_run events handlerInv_init hvalid
  set s := handlerRun handlerInit events with hs
  obtain ⟨hnd, hreg, hzero, hone, hnone⟩ := hInv
  refine ⟨?_, hzero, ?_, ?_⟩
  · intro k
    by_cases h1 : k ∈ s.table
    · rw [hzero k h1]; exact Nat.zero_le 1
    · by_cases h2 : k ∈ s.registered
      · rw [hone k h2 h1]
      · rw [hnone k h2]; exact Nat.zero_le 1
  · intro k errIdss idss hkt htouch
    have hInv2 : HandlerInv (handlerStep s (.response errIdss idss)) :=
      handlerInv_step _ ⟨hnd, hreg, hzero, hone, hnone⟩ trivial
    have hnd1 : (errIdss.foldl close_requests s).table.Nodup :=
      (handlerInv_foldl_close errIdss ⟨hnd, hreg, hzero, hone, hnone⟩).1
    have hout : k ∉ (handlerStep s (.response errIdss idss)).table := by
      show k ∉ (idss.foldl close_requests (errIdss.foldl close_requests s)).table
      exact foldl_close_removes idss hnd1 htouch
    have hreg2 : k ∈ (handlerStep s (.response errIdss idss)).registered := by
      show k ∈ (idss.foldl close_requests (errIdss.foldl close_requests s)).registered
      rw [foldl_close_registered, foldl_close_registered]
      exact hreg k hkt
    exact ⟨hout, hInv2.2.2.2.1 k hreg2 hout⟩
  · intro k n hk
    have hInv2 : HandlerInv (handlerStep s (.stopSession n)) :=
      handlerInv_step _ ⟨hnd, hreg, hzero, hone, hnone⟩ trivial
    have hout : k ∉ (handlerStep s (.stopSession n)).table := by
      show k ∉ (close_requests s (s.table.take n)).table
      exact close_requests_removes _ hnd hk
    have hkt : k ∈ s.table := (List.take_subset n s.table) hk
    have hreg2 : k ∈ (handlerStep s (.stopSession n)).registered := by
      show k ∈ (close_requests s (s.table.take n)).registered
      rw [close_requests_registered]
      exact hreg k hkt
    exact ⟨hout, hInv2.2.2.2.1 k hreg2 hout⟩

/-- Witness for C5: after registering key 0, a stop-session close-out of
the single-entry table removes the key and delivers exactly one
sentinel. -/
theorem handler_sentinel_at_most_once_witness :
    0 ∉ (handlerStep (handlerRun handlerInit [HandlerEvent.register 0])
        (HandlerEvent.stopSession 1)).table ∧
    (handlerStep (handlerRun handlerInit [HandlerEvent.register 0])
        (HandlerEvent.stopSession 1)).sentinels.count 0 = 1 := by
  exact (handler_sentinel_at_most_once [HandlerEvent.register 0]
      ⟨by decide, trivial⟩).2.2.2 0 1 (by decide)
